import Mathlib

/-!
Verification of the message-search core of the keyword-research repository.

The development shallowly embeds the TypeScript sources:
* `src/lib/searchMessages.ts` — the query engine (`searchMessages` and its
  helper predicates);
* `src/lib/parseHtml.ts` — the node record store (LRU cache, metadata);
* `src/lib/storage.browser.ts` — the browser record store (`computeMeta`,
  `loadParsedFileBrowser`);
* `src/lib/parseHtml.browser.ts` — the browser timestamp parser;
* `src/app/components/HtmlSearchApp.tsx` — the merge-search ("all datasets")
  branch;
* `src/app/api/readable/route.ts` — the HTTP search surface's not-found path.

JavaScript strings are modelled as lists of characters, JavaScript numbers
holding epoch milliseconds as `Int`, and absent (`undefined`/`null`) values as
`Option`.
-/

namespace HtmlSearch

/-- JavaScript strings, modelled as lists of characters. -/
abbrev Str := List Char

/-- Whitespace test used for `trim` and for the `\s` regex class. -/
def isWs (c : Char) : Bool := c.isWhitespace

/-- JavaScript `String.prototype.trim`: drop whitespace from both ends. -/
def trimStr (s : Str) : Str :=
  ((s.dropWhile isWs).reverse.dropWhile isWs).reverse

/-- JavaScript `String.prototype.toLowerCase` (character-wise). -/
def toLowerStr (s : Str) : Str := s.map Char.toLower

/-- `leadsStr p s` holds when `p` occurs at the very start of `s`. -/
def leadsStr : Str → Str → Bool
  | [], _ => true
  | _ :: _, [] => false
  | a :: p, b :: s => a == b && leadsStr p s

/-- JavaScript `String.prototype.includes`: `needle` occurs somewhere in
`hay`. -/
def strIncludes (hay needle : Str) : Bool :=
  (List.range (hay.length + 1)).any fun i => leadsStr needle (hay.drop i)

/-- JavaScript `String.prototype.indexOf`, as an `Option` instead of the `-1`
sentinel: position of the first occurrence of `needle` in `hay`. -/
def idxOfSub (hay needle : Str) : Option Nat :=
  (List.range (hay.length + 1)).find? fun i => leadsStr needle (hay.drop i)

/-- Splitting on runs of whitespace (`split(/\s+/)` composed with the
`filter(Boolean)` that drops empty tokens), with an accumulator for the
current token (kept reversed). -/
def splitWsAux : Str → Str → List Str
  | [], acc => if acc.isEmpty then [] else [acc.reverse]
  | c :: rest, acc =>
    if isWs c then
      if acc.isEmpty then splitWsAux rest [] else acc.reverse :: splitWsAux rest []
    else splitWsAux rest (c :: acc)

/-- Whitespace-separated tokens of a string. -/
def splitWs (s : Str) : List Str := splitWsAux s []

/-- `parseTerms` from `searchMessages.ts`: trim, lowercase, split on
whitespace, drop empty tokens. -/
def parseTerms (v : Str) : List Str := splitWs (toLowerStr (trimStr v))

/-- The regex word-character class `\w` = `[A-Za-z0-9_]`. -/
def isWordChar (c : Char) : Bool := c.isAlphanum || c == '_'

/-- Whether position `i` of `s` holds a word character (out of range counts as
a non-word position). -/
def wordAt (s : Str) (i : Nat) : Bool :=
  match s[i]? with
  | some c => isWordChar c
  | none => false

/-- The regex word-boundary assertion `\b` at position `p` of `s`: exactly one
of the two neighbouring positions holds a word character. -/
def boundaryAt (s : Str) (p : Nat) : Bool :=
  (if p = 0 then false else wordAt s (p - 1)) != wordAt s p

/-- Case-insensitive equality of strings (the regex `i` flag). -/
def ciEqStr (a b : Str) : Bool := toLowerStr a == toLowerStr b

/-- The literal pattern `term` matches at position `i` of `s`, case
insensitively. -/
def matchTermAt (s term : Str) (i : Nat) : Bool :=
  ciEqStr ((s.drop i).take term.length) term

/-- Semantics of `new RegExp("\\b" + escapeRegExp(term) + "\\b", "i").test s`:
the escaped term occurs literally (case-insensitively) at some position with a
word boundary on both sides. -/
def wholeWordMatch (s term : Str) : Bool :=
  (List.range (s.length + 1)).any fun i =>
    matchTermAt s term i && boundaryAt s i && boundaryAt s (i + term.length)

/-- The two text match modes of the query engine. -/
inductive MatchMode
  | substring
  | word
deriving DecidableEq, Inhabited

/-- `matchesQuery` from `searchMessages.ts` (the local bindings `qTrim`,
`qNorm` and `terms` of the source are inlined). -/
def matchesQuery (textNorm q : Str) (matchMode : MatchMode) : Bool :=
  if (trimStr q).isEmpty then true
  else
    match matchMode with
    | .substring => strIncludes textNorm (toLowerStr (trimStr q))
    | .word =>
      if (parseTerms (trimStr q)).isEmpty then true
      else (parseTerms (trimStr q)).all fun term => wholeWordMatch textNorm term

/-- `matchesExclude` from `searchMessages.ts`: the message is dropped when any
exclude term occurs in `textNorm`. -/
def matchesExclude (textNorm exclude : Str) : Bool :=
  if (trimStr exclude).isEmpty then false
  else if (parseTerms (trimStr exclude)).isEmpty then false
  else (parseTerms (trimStr exclude)).any fun term => strIncludes textNorm term

/-- The `ParsedMessage` record of `src/lib/types.ts`. -/
structure ParsedMessage where
  id : Str
  sender : Str
  text : Str
  textNorm : Str
  timestampRaw : Str
  timestampMs : Option Int
deriving DecidableEq, Inhabited

/-- The `SearchParams` record of `src/lib/types.ts`; optional fields are
`Option`s.  `offset` and `limit` are modelled as naturals, per the query
contract (`offset ≥ 0`, `limit > 0`, both clamped by the HTTP surface). -/
structure SearchParams where
  q : Str
  exclude : Option Str := none
  matchMode : Option MatchMode := none
  sender : Option Str := none
  fromMs : Option Int := none
  toMs : Option Int := none
  offset : Nat := 0
  limit : Nat := 50
deriving DecidableEq, Inhabited

/-- The `SearchHit` record of `src/lib/types.ts`. -/
structure SearchHit where
  id : Str
  sender : Str
  timestampRaw : Str
  timestampMs : Option Int
  text : Str
  snippet : Str
deriving DecidableEq, Inhabited

/-- The filter of the `for (const message of messages)` loop in
`searchMessages`: a message is pushed onto `filtered` when it passes the
sender, exclude, time-range and text-match predicates. -/
def keepMessage (p : SearchParams) (m : ParsedMessage) : Bool :=
  (match p.sender with
   | some s => s.isEmpty || m.sender == s
   | none => true) &&
  (match p.exclude with
   | some ex => !matchesExclude m.textNorm ex
   | none => true) &&
  (match p.fromMs with
   | some f =>
     match m.timestampMs with
     | some t => decide (f ≤ t)
     | none => false
   | none => true) &&
  (match p.toMs with
   | some u =>
     match m.timestampMs with
     | some t => decide (t ≤ u)
     | none => false
   | none => true) &&
  matchesQuery m.textNorm p.q (p.matchMode.getD .substring)

/-- Sort key of the ranking comparator: a missing `timestampMs` is replaced by
the sentinel `-1` (`typeof a.timestampMs === "number" ? a.timestampMs : -1`). -/
def sortKey (m : ParsedMessage) : Int := m.timestampMs.getD (-1)

/-- Stable insertion: place `a` before the first element `b` with `le a b`. -/
def insertStable (le : α → α → Bool) (a : α) : List α → List α
  | [] => [a]
  | b :: bs => if le a b then a :: b :: bs else b :: insertStable le a bs

/-- A stable comparison sort, modelling `Array.prototype.sort` with a
consistent comparator (ECMAScript guarantees stability). -/
def stableSortBy (le : α → α → Bool) : List α → List α
  | [] => []
  | a :: rest => insertStable le a (stableSortBy le rest)

/-- The ranking comparator `(a, b) => bv - av`: `a` may stay before `b`
exactly when `sortKey b ≤ sortKey a` (newest first). -/
def byNewest (a b : ParsedMessage) : Bool := decide (sortKey b ≤ sortKey a)

/-- The in-place `filtered.sort(...)` of `searchMessages`. -/
def rankedSort (l : List ParsedMessage) : List ParsedMessage :=
  stableSortBy byNewest l

/-- `qNorm` of `searchMessages`: the trimmed, lowercased query text. -/
def qNormOf (p : SearchParams) : Str := toLowerStr (trimStr p.q)

/-- `firstTerm` of `searchMessages`: the first whole-word term in word mode,
the whole normalized query otherwise. -/
def firstTermOf (p : SearchParams) : Str :=
  match p.matchMode.getD .substring with
  | .word => (parseTerms p.q).headD []
  | .substring => qNormOf p

/-- `makeSnippet` from `searchMessages.ts`. -/
def makeSnippet (text textNorm qNorm : Str) : Str :=
  match idxOfSub textNorm qNorm with
  | none =>
    let fallback := text.take (min text.length (48 * 2))
    if fallback.length < text.length then fallback ++ ['…'] else fallback
  | some pos =>
    let start := pos - 48
    let stop := min text.length (pos + qNorm.length + 48)
    let pre : Str := if 0 < start then ['…'] else []
    let suf : Str := if stop < text.length then ['…'] else []
    pre ++ (text.drop start).take (stop - start) ++ suf

/-- The hit built from a matched message in the final `slice.map`.  When
`firstTerm` is the empty string the source passes `""` explicitly, which is
the same value. -/
def mkHit (p : SearchParams) (m : ParsedMessage) : SearchHit :=
  { id := m.id
    sender := m.sender
    timestampRaw := m.timestampRaw
    timestampMs := m.timestampMs
    text := m.text
    snippet := makeSnippet m.text m.textNorm (firstTermOf p) }

/-- Result shape of the query engine. -/
structure SearchResult where
  total : Nat
  results : List SearchHit
deriving DecidableEq, Inhabited

/-- `searchMessages` from `src/lib/searchMessages.ts`.  The source sorts the
freshly built `filtered` array in place and then reads `filtered.length`, so
`total` is the length of the sorted list. -/
def searchMessages (messages : List ParsedMessage) (p : SearchParams) :
    SearchResult :=
  let filtered := messages.filter (keepMessage p)
  let sorted := rankedSort filtered
  let total := sorted.length
  let slice := (sorted.drop p.offset).take p.limit
  { total := total, results := slice.map (mkHit p) }

/-! ### Dataset metadata (`computeMeta` in `storage.browser.ts`, duplicated
inline in `saveParsedFile` of `parseHtml.ts`) -/

/-- The `ParsedFileMeta` record of `src/lib/types.ts`. -/
structure ParsedFileMeta where
  fileId : Str
  originalName : Str
  messageCount : Nat
  senders : List Str
  minTimestampMs : Option Int
  maxTimestampMs : Option Int
  createdAtMs : Int
deriving DecidableEq, Inhabited

/-- `new Set(...)` iteration order: deduplication keeping first
occurrences. -/
def dedupAux (seen : List Str) : List Str → List Str
  | [] => []
  | a :: rest =>
    if seen.contains a then dedupAux seen rest
    else a :: dedupAux (a :: seen) rest

/-- `Array.from(new Set(l))`. -/
def dedupKeepFirst (l : List Str) : List Str := dedupAux [] l

/-- The default `Array.prototype.sort` string comparison: lexicographic on
code units. -/
def strLtB : Str → Str → Bool
  | [], [] => false
  | [], _ :: _ => true
  | _ :: _, [] => false
  | a :: as, b :: bs =>
    if a.val < b.val then true
    else if b.val < a.val then false
    else strLtB as bs

/-- A string may stay before another under the default sort comparison. -/
def strLeB (a b : Str) : Bool := !strLtB b a

/-- `Math.min(...ts)` guarded by `ts.length`, as an `Option`. -/
def listMinOpt : List Int → Option Int
  | [] => none
  | a :: rest => some (rest.foldl min a)

/-- `Math.max(...ts)` guarded by `ts.length`, as an `Option`. -/
def listMaxOpt : List Int → Option Int
  | [] => none
  | a :: rest => some (rest.foldl max a)

/-- `computeMeta` from `src/lib/storage.browser.ts`; `saveParsedFile` in
`src/lib/parseHtml.ts` computes the identical record inline.  `now` stands
for the ambient `Date.now()`. -/
def computeMeta (fileId originalName : Str) (messages : List ParsedMessage)
    (now : Int) : ParsedFileMeta :=
  { fileId := fileId
    originalName := originalName
    messageCount := messages.length
    senders := stableSortBy strLeB
      (dedupKeepFirst (messages.map (fun m => m.sender)))
    minTimestampMs := listMinOpt ((messages.map (fun m => m.timestampMs)).filterMap id)
    maxTimestampMs := listMaxOpt ((messages.map (fun m => m.timestampMs)).filterMap id)
    createdAtMs := now }

/-! ### The node record store and its LRU cache (`src/lib/parseHtml.ts`) -/

/-- One cache slot of the module-level `cache` map. -/
structure CacheEntry where
  meta : ParsedFileMeta
  messages : List ParsedMessage
  lastAccessMs : Int
deriving DecidableEq, Inhabited

/-- The JavaScript `Map`, modelled as an association list in insertion
order. -/
abbrev JsMap (β : Type) := List (Str × β)

/-- `Map.prototype.set`: replace in place when the key exists, append
otherwise. -/
def mapSet (l : JsMap β) (k : Str) (v : β) : JsMap β :=
  match l with
  | [] => [(k, v)]
  | (k', v') :: rest =>
    if k' == k then (k, v) :: rest else (k', v') :: mapSet rest k v

/-- `Map.prototype.delete`: remove the entry with the given key. -/
def mapDelete (l : JsMap β) (k : Str) : JsMap β :=
  match l with
  | [] => []
  | (k', v') :: rest =>
    if k' == k then rest else (k', v') :: mapDelete rest k

/-- `MAX_CACHED_FILES`. -/
def maxCachedFiles : Nat := 3

/-- The scan of `evictIfNeeded`, carrying the best candidate so far.  The
source starts from `oldestAccess = +Infinity`, so the first entry always
becomes the initial candidate and the strict `<` keeps the first-found
minimum. -/
def findOldestGo : JsMap CacheEntry → Str → Int → Str × Int
  | [], k, t => (k, t)
  | (k', e') :: rest, k, t =>
    if e'.lastAccessMs < t then findOldestGo rest k' e'.lastAccessMs
    else findOldestGo rest k t

/-- The oldest-entry scan of `evictIfNeeded` over the whole cache. -/
def findOldest : JsMap CacheEntry → Option (Str × Int)
  | [] => none
  | (k, e) :: rest => some (findOldestGo rest k e.lastAccessMs)

/-- `evictIfNeeded` from `parseHtml.ts`.  Note the final
`if (oldestKey) cache.delete(oldestKey)`: a JavaScript truthiness test, so an
empty-string key is never deleted. -/
def evictIfNeeded (c : JsMap CacheEntry) : JsMap CacheEntry :=
  if c.length ≤ maxCachedFiles then c
  else
    match findOldest c with
    | none => c
    | some (k, _) => if k.isEmpty then c else mapDelete c k

/-- The module state of `parseHtml.ts`: the in-memory cache map plus the
durable per-`fileId` records under `data/` (meta and message list). -/
structure NodeStore where
  cache : JsMap CacheEntry
  disk : JsMap (ParsedFileMeta × List ParsedMessage)
deriving DecidableEq, Inhabited

/-- The store with no cached and no durable datasets. -/
def emptyStore : NodeStore := { cache := [], disk := [] }

/-- `saveParsedFile`: compute metadata, write meta and messages through to
disk, then refresh the cache entry and evict if over capacity.  `now` stands
for the ambient `Date.now()`. -/
def saveParsedFile (st : NodeStore) (fileId originalName : Str)
    (messages : List ParsedMessage) (now : Int) :
    NodeStore × ParsedFileMeta :=
  let meta := computeMeta fileId originalName messages now
  let disk := mapSet st.disk fileId (meta, messages)
  let entry : CacheEntry :=
    { meta := meta, messages := messages, lastAccessMs := now }
  let cache := evictIfNeeded (mapSet st.cache fileId entry)
  ({ cache := cache, disk := disk }, meta)

/-- `loadParsedFile`: on a cache hit refresh `lastAccessMs` in place; on a
miss read from disk (`none` models the thrown ENOENT), insert into the cache
and evict if over capacity. -/
def loadParsedFile (st : NodeStore) (fileId : Str) (now : Int) :
    Option (NodeStore × ParsedFileMeta × List ParsedMessage) :=
  match List.lookup fileId st.cache with
  | some e =>
    let entry : CacheEntry := { e with lastAccessMs := now }
    some ({ st with cache := mapSet st.cache fileId entry },
          e.meta, e.messages)
  | none =>
    match List.lookup fileId st.disk with
    | none => none
    | some (meta, messages) =>
      let entry : CacheEntry :=
        { meta := meta, messages := messages, lastAccessMs := now }
      some ({ st with cache := evictIfNeeded (mapSet st.cache fileId entry) },
            meta, messages)

/-- One store operation: a `saveParsedFile` or a `loadParsedFile` call,
tagged with its ambient `Date.now()` value. -/
inductive StoreOp
  | put (fileId originalName : Str) (messages : List ParsedMessage) (now : Int)
  | get (fileId : Str) (now : Int)
deriving DecidableEq

/-- The dataset key an operation touches. -/
def StoreOp.fileId : StoreOp → Str
  | .put f _ _ _ => f
  | .get f _ => f

/-- State transition of one store operation (a failed `get` leaves the state
unchanged). -/
def applyOp (st : NodeStore) : StoreOp → NodeStore
  | .put f n m t => (saveParsedFile st f n m t).1
  | .get f t =>
    match loadParsedFile st f t with
    | some (st2, _, _) => st2
    | none => st

/-- Run a sequence of store operations from a given state. -/
def runOps (st : NodeStore) (ops : List StoreOp) : NodeStore :=
  ops.foldl applyOp st

/-! ### The browser record store and the HTTP search surface
(`src/lib/storage.browser.ts`, `src/app/api/readable/route.ts`) -/

/-- The `StoredFile` record kept in the browser object store. -/
structure BrowserStoredFile where
  fileId : Str
  meta : ParsedFileMeta
  messages : List ParsedMessage
  originalHtml : Str
deriving DecidableEq, Inhabited

/-- `loadParsedFileBrowser`: an absent record (an `undefined` IndexedDB
`get` result) raises `"Unknown fileId"`. -/
def loadParsedFileBrowser (db : JsMap BrowserStoredFile) (fileId : Str) :
    Except String (ParsedFileMeta × List ParsedMessage × Str) :=
  match List.lookup fileId db with
  | none => .error "Unknown fileId"
  | some v => .ok (v.meta, v.messages, v.originalHtml)

/-- The JSON responses of the readable route's search variant: a 200 payload
or an error status with a message. -/
inductive RouteSearchResponse
  | ok (fileId : Str) (meta : ParsedFileMeta) (total : Nat)
      (offset limit : Nat) (results : List SearchHit)
  | jsonError (status : Nat) (error : String)
deriving DecidableEq

/-- The search variant of `GET /api/readable`: load the dataset and search
it; the `catch` branch answers 404.  Query-string parsing and the clamping of
`offset`/`limit` happen before this point and are reflected in the `Nat`
parameters. -/
def readableSearchGet (st : NodeStore) (fileId : Str) (q : Str)
    (sender : Option Str) (fromMs toMs : Option Int) (offset limit : Nat)
    (now : Int) : RouteSearchResponse × NodeStore :=
  match loadParsedFile st fileId now with
  | none =>
    (.jsonError 404 "Unknown fileId (not uploaded yet, or data was deleted).",
     st)
  | some (st2, meta, messages) =>
    let r := searchMessages messages
      { q := q, sender := sender, fromMs := fromMs, toMs := toMs,
        offset := offset, limit := limit }
    (.ok fileId meta r.total offset limit r.results, st2)

/-! ### Merge search across all stored datasets
(`search`, `searchScope = "all"` branch of `HtmlSearchApp.tsx`) -/

/-- One loaded dataset of the merge-search loop. -/
structure DatasetEntry where
  fileId : Str
  meta : ParsedFileMeta
  messages : List ParsedMessage
deriving DecidableEq, Inhabited

/-- The ascending comparator `av - bv` with missing timestamps sent to
`+Infinity` (used to compute 1-based chronological message indices); two
missing timestamps compare `NaN`, which `Array.prototype.sort` treats as a
tie. -/
def ascByTimestamp (a b : ParsedMessage) : Bool :=
  match a.timestampMs, b.timestampMs with
  | none, none => true
  | none, some _ => false
  | some _, none => true
  | some x, some y => decide (x ≤ y)

/-- The `idxById` map: position of the message id in the chronologically
ordered list, 1-based; built by ascending loop, so a duplicated id keeps the
last index. -/
def indexById (ordered : List ParsedMessage) (idv : Str) : Option Nat :=
  ordered.enum.foldl
    (fun acc p => if p.2.id == idv then some (p.1 + 1) else acc) none

/-- A merge-search hit: a search hit widened with dataset provenance. -/
structure MergedHit where
  id : Str
  sender : Str
  timestampRaw : Str
  timestampMs : Option Int
  text : Str
  snippet : Str
  fileId : Str
  fileName : Str
  messageIndex : Option Nat
  key : Str
deriving DecidableEq, Inhabited

/-- The spread `{ ...r, fileId, fileName, messageIndex, key }` of the merge
loop. -/
def wrapHit (e : DatasetEntry) (ordered : List ParsedMessage)
    (h : SearchHit) : MergedHit :=
  { id := h.id, sender := h.sender, timestampRaw := h.timestampRaw,
    timestampMs := h.timestampMs, text := h.text, snippet := h.snippet,
    fileId := e.fileId, fileName := e.meta.originalName,
    messageIndex := indexById ordered h.id,
    key := e.fileId ++ ':' :: h.id }

/-- Sort key for the merged ranking (same `-1` sentinel as the per-dataset
sort). -/
def hitSortKey (h : MergedHit) : Int := h.timestampMs.getD (-1)

/-- The merged ranking comparator (newest first). -/
def mergedByNewest (a b : MergedHit) : Bool :=
  decide (hitSortKey b ≤ hitSortKey a)

/-- The `searchScope = "all"` branch: search every dataset with `offset = 0`
and `limit = max(1, messages.length)`, wrap hits with provenance, re-sort the
union newest-first, and apply the global pagination window.  Returns
`(totalAll, slice)`. -/
def searchAllMerged (ds : List DatasetEntry) (p : SearchParams) :
    Nat × List MergedHit :=
  let merged := ds.flatMap (fun e =>
    (searchMessages e.messages
        { p with offset := 0, limit := max 1 e.messages.length }).results.map
      (wrapHit e (stableSortBy ascByTimestamp e.messages)))
  let sortedAll := stableSortBy mergedByNewest merged
  (merged.length, (sortedAll.drop p.offset).take p.limit)

/-! ### Timestamp parsing (`parseHtml.browser.ts` and `parseHtml.ts`) -/

/-- The `[A-Za-z]` class of the timestamp regex. -/
def isAsciiAlpha (c : Char) : Bool := c.isAlpha

/-- Civil date and time fields as handed to `new Date(year, month, day,
hour, minute, 0, 0)`; `monthIdx` is zero-based as in JavaScript. -/
structure DateFields where
  year : Nat
  monthIdx : Nat
  day : Nat
  hour : Nat
  minute : Nat
deriving DecidableEq, Inhabited

/-- Days from the Unix epoch to the civil date `(y, m, d)` (proleptic
Gregorian, `m` is 1-based); linear in `d`, so out-of-range days roll over
exactly like the JavaScript `Date` constructor. -/
def daysFromCivil (y : Int) (m : Nat) (d : Int) : Int :=
  let yAdj := if m ≤ 2 then y - 1 else y
  let era := Int.fdiv yAdj 400
  let yoe := yAdj - era * 400
  let mp : Int := if 2 < m then (m : Int) - 3 else (m : Int) + 9
  let doy := (153 * mp + 2) / 5 + d - 1
  let doe := yoe * 365 + yoe / 4 - yoe / 100 + doy
  era * 146097 + doe - 719468

/-- Epoch milliseconds of civil fields interpreted in a local zone that is
`tzOffsetMin` minutes east of UTC (the ambient zone of `new Date(...)` and
`DateTime`). -/
def epochMsOfLocalFields (tzOffsetMin : Int) (f : DateFields) : Int :=
  daysFromCivil (f.year : Int) (f.monthIdx + 1) (f.day : Int) * 86400000
    + (f.hour : Int) * 3600000 + (f.minute : Int) * 60000
    - tzOffsetMin * 60000

/-- The `MONTHS` lookup table of `parseHtml.browser.ts` (keys lowercase,
values zero-based). -/
def monthsTable : List (Str × Nat) :=
  [("jan".toList, 0), ("january".toList, 0),
   ("feb".toList, 1), ("february".toList, 1),
   ("mar".toList, 2), ("march".toList, 2),
   ("apr".toList, 3), ("april".toList, 3),
   ("may".toList, 4),
   ("jun".toList, 5), ("june".toList, 5),
   ("jul".toList, 6), ("july".toList, 6),
   ("aug".toList, 7), ("august".toList, 7),
   ("sep".toList, 8), ("sept".toList, 8), ("september".toList, 8),
   ("oct".toList, 9), ("october".toList, 9),
   ("nov".toList, 10), ("november".toList, 10),
   ("dec".toList, 11), ("december".toList, 11)]

/-- `\s+`: at least one whitespace character, greedily consumed. -/
def eatWs1 (s : Str) : Option Str :=
  match s with
  | c :: rest => if isWs c then some (rest.dropWhile isWs) else none
  | [] => none

/-- A single literal character. -/
def eatChar (c : Char) (s : Str) : Option Str :=
  match s with
  | c' :: rest => if c' == c then some rest else none
  | [] => none

/-- Digit run to a number (`Number(...)` on the captured digits). -/
def digitsToNat (ds : Str) : Nat :=
  ds.foldl (fun acc c => acc * 10 + (c.toNat - 48)) 0

/-- The 12-hour to 24-hour adjustment of the browser parser:
`if pm && hour < 12 then hour += 12; if am && hour === 12 then hour = 0`. -/
def adjustHour (isPm : Bool) (h : Nat) : Nat :=
  if isPm && decide (h < 12) then h + 12
  else if !isPm && h == 12 then 0
  else h

/-- The anchored timestamp regex of `parseHtml.browser.ts`,
`/^([A-Za-z]{3,9})\s+(\d{1,2}),\s*(\d{4})\s+(\d{1,2}):(\d{2})\s*([ap]m)$/i`,
combined with the `MONTHS` lookup and the am/pm hour adjustment, yielding the
fields handed to `new Date(...)`.  Greedy runs are equivalent to the regex
here because letters and digits cannot match the delimiters that follow
them. -/
def structuredMatch (s : Str) : Option DateFields :=
  let monthStr := s.takeWhile isAsciiAlpha
  let r1 := s.dropWhile isAsciiAlpha
  if monthStr.length < 3 ∨ 9 < monthStr.length then none
  else match eatWs1 r1 with
  | none => none
  | some r2 =>
    let dayStr := r2.takeWhile Char.isDigit
    let r3 := r2.dropWhile Char.isDigit
    if dayStr.length < 1 ∨ 2 < dayStr.length then none
    else match eatChar ',' r3 with
    | none => none
    | some r4 =>
      let r5 := r4.dropWhile isWs
      let yearStr := r5.takeWhile Char.isDigit
      let r6 := r5.dropWhile Char.isDigit
      if yearStr.length ≠ 4 then none
      else match eatWs1 r6 with
      | none => none
      | some r7 =>
        let hourStr := r7.takeWhile Char.isDigit
        let r8 := r7.dropWhile Char.isDigit
        if hourStr.length < 1 ∨ 2 < hourStr.length then none
        else match eatChar ':' r8 with
        | none => none
        | some r9 =>
          let minStr := r9.takeWhile Char.isDigit
          let r10 := r9.dropWhile Char.isDigit
          if minStr.length ≠ 2 then none
          else match r10.dropWhile isWs with
          | [a, m] =>
            if (a.toLower == 'a' || a.toLower == 'p') && m.toLower == 'm' then
              match List.lookup (toLowerStr monthStr) monthsTable with
              | some monthIdx =>
                some { year := digitsToNat yearStr, monthIdx := monthIdx,
                       day := digitsToNat dayStr,
                       hour := adjustHour (a.toLower == 'p')
                         (digitsToNat hourStr),
                       minute := digitsToNat minStr }
              | none => none
            else none
          | _ => none

/-- Modelled from the spec: the node extractor's structured matcher is the
external luxon call `DateTime.fromFormat(trimmed, "LLL d, yyyy h:mm a",
{locale: "en"})`, which is not part of this repository's sources.  Per the
spec (§4.1 step 4) it matches the producer format
`"<Month> <Day>, <Year> <Hour>:<Minute> <am|pm>"` with case-insensitive
month names and local-time semantics — the language of the in-repository
structured matcher — so it is modelled by that field parser composed with
local-time epoch conversion. -/
def luxonFromFormatMillis (tzOffsetMin : Int) (s : Str) : Option Int :=
  (structuredMatch s).map (epochMsOfLocalFields tzOffsetMin)

/-- Modelled from the spec: the host's generic date parser `Date.parse`, a
JavaScript builtin that is not part of this repository's sources.  The spec
(§4.1 step 4) only requires a "generic date/time parse" attempted alongside
the structured matcher; it is modelled as accepting the producer's month-name
format with local-time semantics, the only shape this development evaluates
it on. -/
def dateParseGeneric (tzOffsetMin : Int) (s : Str) : Option Int :=
  (structuredMatch s).map (epochMsOfLocalFields tzOffsetMin)

/-- `parseTimestampMs` from `src/lib/parseHtml.ts` (node): the structured
luxon format is tried first, then the generic `Date.parse`. -/
def parseTimestampMsNode (tzOffsetMin : Int) (raw : Str) : Option Int :=
  if (trimStr raw).isEmpty then none
  else match luxonFromFormatMillis tzOffsetMin (trimStr raw) with
  | some v => some v
  | none =>
    match dateParseGeneric tzOffsetMin (trimStr raw) with
    | some v => some v
    | none => none

/-- `parseTimestampMs` from `src/lib/parseHtml.browser.ts`: the generic
`Date.parse` is tried first, then the structured regex matcher (whose
`getTime()` result is never `NaN` for in-range fields, so the `isNaN` guard
is not modelled). -/
def parseTimestampMsBrowser (tzOffsetMin : Int) (raw : Str) : Option Int :=
  if (trimStr raw).isEmpty then none
  else match dateParseGeneric tzOffsetMin (trimStr raw) with
  | some v => some v
  | none =>
    match structuredMatch (trimStr raw) with
    | some f => some (epochMsOfLocalFields tzOffsetMin f)
    | none => none

/-! ### A heap model for the frame property of `searchMessages` -/

/-- A heap of JavaScript arrays of messages, addressed by allocation
order. -/
abbrev JsHeap := List (List ParsedMessage)

/-- Read the array behind reference `r`. -/
def readArr (h : JsHeap) (r : Nat) : List ParsedMessage := h.getD r []

/-- Overwrite the array behind reference `r` (in-place mutation such as
`sort`). -/
def writeArr (h : JsHeap) (r : Nat) (v : List ParsedMessage) : JsHeap :=
  h.set r v

/-- Allocate a fresh array (`const filtered = []`). -/
def allocArr (h : JsHeap) (v : List ParsedMessage) : JsHeap × Nat :=
  (h ++ [v], h.length)

/-- One iteration of the `for (const message of messages)` loop: read element
`i` of the live input array and push it onto `filtered` when it passes the
predicates. -/
def pushFilteredStep (p : SearchParams) (msgsRef filteredRef : Nat)
    (h : JsHeap) (i : Nat) : JsHeap :=
  let m := (readArr h msgsRef).getD i default
  if keepMessage p m then
    writeArr h filteredRef (readArr h filteredRef ++ [m])
  else h

/-- `searchMessages` against the heap model: allocate `filtered`, run the
filter loop over the input array, sort `filtered` in place, then slice and
map to hits.  Returns the final heap with `total` and `results`. -/
def searchMessagesHeap (h0 : JsHeap) (msgsRef : Nat) (p : SearchParams) :
    JsHeap × Nat × List SearchHit :=
  let h1 := (allocArr h0 []).1
  let filteredRef := (allocArr h0 []).2
  let n := (readArr h1 msgsRef).length
  let h2 := (List.range n).foldl (pushFilteredStep p msgsRef filteredRef) h1
  let h3 := writeArr h2 filteredRef (rankedSort (readArr h2 filteredRef))
  let sorted := readArr h3 filteredRef
  (h3, sorted.length, ((sorted.drop p.offset).take p.limit).map (mkHit p))

/-- Well-formedness of the cache map: distinct keys, non-empty keys (the
truthiness guard of `evictIfNeeded` conflates an empty-string key with
`null`), and at most `MAX_CACHED_FILES` entries. -/
def CacheWf (c : JsMap CacheEntry) : Prop :=
  (c.map Prod.fst).Nodup ∧ (∀ q ∈ c, q.1 ≠ []) ∧
    c.length ≤ maxCachedFiles

/-! ### Concrete fixtures used for counterexamples and witness instances -/

/-- Dataset keys for the cache scenarios. -/
def fid1 : Str := ['d', '1']

def fid2 : Str := ['d', '2']

def fid3 : Str := ['d', '3']

def fid4 : Str := ['d', '4']

/-- The per-dataset parameters of the merge-search loop: the caller's query
with `offset = 0` and `limit = Math.max(1, messages.length)`. -/
def unlimitedParams (p : SearchParams) (n : Nat) : SearchParams :=
  { p with offset := 0, limit := max 1 n }

/-- The claimed eviction scenario: fill the capacity-3 cache with datasets
1..3, access datasets 2 and 3, then insert a fourth dataset. -/
def scenarioOps : List StoreOp :=
  [.put fid1 fid1 [] 0, .put fid2 fid2 [] 1, .put fid3 fid3 [] 2,
   .get fid2 3, .get fid3 4, .put fid4 fid4 [] 5]

/-- Four inserts whose least-recently-used key is the empty string. -/
def overflowOps : List StoreOp :=
  [.put [] [] [] 0, .put fid2 fid2 [] 1, .put fid3 fid3 [] 2,
   .put fid4 fid4 [] 3]

/-- The producer-format timestamp of the round-trip property. -/
def marRaw : Str := "Mar 16, 2023 11:23 pm".toList

/-- A message with a pre-1970 (negative) timestamp. -/
def preEpochMsg : ParsedMessage :=
  { id := ['o'], sender := ['s'], text := ['x'], textNorm := ['x'],
    timestampRaw := [], timestampMs := some (-2) }

/-- A message whose timestamp failed to parse. -/
def noTsMsg : ParsedMessage :=
  { id := ['n'], sender := ['s'], text := ['y'], textNorm := ['y'],
    timestampRaw := [], timestampMs := none }

/-- An unfiltered query (empty text, no active predicates). -/
def allParams : SearchParams := { q := [], offset := 0, limit := 10 }

/-- A query whose `sender` field is present but holds the empty string. -/
def emptySenderParams : SearchParams :=
  { q := [], sender := some [], offset := 0, limit := 10 }

/-- A message from sender `"s"` passing every predicate of `fullParams`. -/
def wMsg : ParsedMessage :=
  { id := ['w'], sender := ['s'], text := ['a', 'x', 'b'],
    textNorm := ['a', 'x', 'b'], timestampRaw := [], timestampMs := some 5 }

/-- A query with every filter predicate active. -/
def fullParams : SearchParams :=
  { q := ['x'], exclude := some ['z'], matchMode := some .substring,
    sender := some ['s'], fromMs := some 0, toMs := some 1000,
    offset := 0, limit := 10 }

/-! ### Basic facts about trimming and term splitting -/

theorem dropWhile_dropWhile (p : Char → Bool) (s : Str) :
    (s.dropWhile p).dropWhile p = s.dropWhile p := by
  induction s with
  | nil => rfl
  | cons c cs ih =>
    by_cases h : p c
    · simp [List.dropWhile_cons, h, ih]
    · simp [List.dropWhile_cons, h]

theorem dropWhile_length_le (p : Char → Bool) (s : Str) :
    (s.dropWhile p).length ≤ s.length := by
  induction s with
  | nil => simp
  | cons c cs ih =>
    by_cases h : p c
    · simp only [List.dropWhile_cons, h, if_pos]
      exact Nat.le_succ_of_le ih
    · simp [List.dropWhile_cons, h]

theorem head_false_of_dropWhile_self {p : Char → Bool} {s : Str}
    (h : s.dropWhile p = s) : ∀ c cs, s = c :: cs → p c = false := by
  intro c cs hs
  subst hs
  by_cases hc : p c
  · exfalso
    rw [List.dropWhile_cons, if_pos hc] at h
    have hlen := dropWhile_length_le p cs
    rw [h] at hlen
    simp at hlen
  · simpa using hc

theorem head_trimStr_not_ws (s : Str) (c : Char) (t2 : Str)
    (h : trimStr s = c :: t2) : isWs c = false := by
  have hdecomp : s.dropWhile isWs
      = ((s.dropWhile isWs).reverse.dropWhile isWs).reverse
        ++ ((s.dropWhile isWs).reverse.takeWhile isWs).reverse := by
    conv_lhs => rw [← List.reverse_reverse (s.dropWhile isWs),
      ← List.takeWhile_append_dropWhile (p := isWs)
          (l := (s.dropWhile isWs).reverse)]
    rw [List.reverse_append]
  unfold trimStr at h
  rw [h] at hdecomp
  exact head_false_of_dropWhile_self (dropWhile_dropWhile isWs s) c _
    (by rw [hdecomp]; rfl)

theorem dropWhile_trimStr (s : Str) : (trimStr s).dropWhile isWs = trimStr s := by
  cases ht : trimStr s with
  | nil => rfl
  | cons c t2 =>
    rw [List.dropWhile_cons, if_neg]
    simp [head_trimStr_not_ws s c t2 ht]

theorem trimStr_idem (s : Str) : trimStr (trimStr s) = trimStr s := by
  show (((trimStr s).dropWhile isWs).reverse.dropWhile isWs).reverse = trimStr s
  rw [dropWhile_trimStr]
  have hrev : (trimStr s).reverse = (s.dropWhile isWs).reverse.dropWhile isWs := by
    unfold trimStr
    rw [List.reverse_reverse]
  rw [hrev, dropWhile_dropWhile]
  rfl

theorem parseTerms_trimStr (v : Str) : parseTerms (trimStr v) = parseTerms v := by
  unfold parseTerms
  rw [trimStr_idem]

theorem parseTerms_eq_nil_of_trim_nil (q : Str) (h : trimStr q = []) :
    parseTerms q = [] := by
  unfold parseTerms
  rw [h]
  rfl

/-! ### The stable sort used for ranking -/

theorem insertStable_perm (le : α → α → Bool) (a : α) (l : List α) :
    (insertStable le a l).Perm (a :: l) := by
  induction l with
  | nil => exact List.Perm.refl _
  | cons b bs ih =>
    unfold insertStable
    by_cases h : le a b
    · simp [h]
    · simp only [h, if_false, Bool.false_eq_true]
      exact (List.Perm.cons b ih).trans (List.Perm.swap a b bs)

theorem stableSortBy_perm (le : α → α → Bool) (l : List α) :
    (stableSortBy le l).Perm l := by
  induction l with
  | nil => exact List.Perm.refl _
  | cons a rest ih =>
    exact (insertStable_perm le a (stableSortBy le rest)).trans
      (List.Perm.cons a ih)

theorem insertStable_pairwise (le : α → α → Bool)
    (htot : ∀ a b, le a b = true ∨ le b a = true)
    (htrans : ∀ a b c, le a b = true → le b c = true → le a c = true)
    (a : α) (l : List α) (h : l.Pairwise fun x y => le x y = true) :
    (insertStable le a l).Pairwise fun x y => le x y = true := by
  induction l with
  | nil => simp [insertStable]
  | cons b bs ih =>
    have hb := (List.pairwise_cons.mp h).1
    have hbs := (List.pairwise_cons.mp h).2
    unfold insertStable
    by_cases hab : le a b
    · simp only [hab, if_true]
      refine List.pairwise_cons.mpr ⟨?_, h⟩
      intro y hy
      rcases List.mem_cons.mp hy with h1 | h2
      · subst h1; exact hab
      · exact htrans a b y hab (hb y h2)
    · have hba : le b a = true := by
        rcases htot a b with h1 | h1
        · exact absurd h1 hab
        · exact h1
      simp only [hab, if_false, Bool.false_eq_true]
      refine List.pairwise_cons.mpr ⟨?_, ih hbs⟩
      intro y hy
      have hmem := (insertStable_perm le a bs).mem_iff.mp hy
      rcases List.mem_cons.mp hmem with h1 | h2
      · subst h1; exact hba
      · exact hb y h2

theorem stableSortBy_pairwise (le : α → α → Bool)
    (htot : ∀ a b, le a b = true ∨ le b a = true)
    (htrans : ∀ a b c, le a b = true → le b c = true → le a c = true)
    (l : List α) :
    (stableSortBy le l).Pairwise fun x y => le x y = true := by
  induction l with
  | nil => simp [stableSortBy]
  | cons a rest ih => exact insertStable_pairwise le htot htrans a _ ih

theorem filter_insertStable_key (key : α → Int) (k : Int) (a : α) (l : List α) :
    (insertStable (fun x y => decide (key y ≤ key x)) a l).filter
        (fun x => key x == k)
      = if key a == k then a :: l.filter (fun x => key x == k)
        else l.filter (fun x => key x == k) := by
  induction l with
  | nil =>
    by_cases hk : key a == k <;> simp [insertStable, List.filter, hk]
  | cons b bs ih =>
    by_cases hab : key b ≤ key a
    · by_cases hk : key a == k <;>
        simp [insertStable, hab, List.filter_cons, hk]
    · have hlt : key a < key b := not_le.mp hab
      by_cases hk : key a == k
      · have hka : key a = k := by simpa using hk
        have hbk : (key b == k) = false := by
          rw [beq_eq_false_iff_ne]
          omega
        simp [insertStable, hab, List.filter_cons, hk, hbk, ih]
      · simp [insertStable, hab, List.filter_cons, hk, ih]

theorem filter_stableSortBy_key (key : α → Int) (k : Int) (l : List α) :
    (stableSortBy (fun x y => decide (key y ≤ key x)) l).filter
        (fun x => key x == k)
      = l.filter (fun x => key x == k) := by
  induction l with
  | nil => rfl
  | cons a rest ih =>
    show (insertStable _ a (stableSortBy _ rest)).filter _ = _
    rw [filter_insertStable_key]
    by_cases hk : key a == k <;> simp [List.filter_cons, hk, ih]

/-- The ranking pass sorts by `sortKey` descending (non-strict, so it covers
ties). -/
theorem rankedSort_pairwise (l : List ParsedMessage) :
    (rankedSort l).Pairwise fun a b => sortKey b ≤ sortKey a := by
  have h := stableSortBy_pairwise byNewest
    (fun a b => by
      unfold byNewest
      rcases le_total (sortKey b) (sortKey a) with h1 | h1
      · exact Or.inl (by simpa using h1)
      · exact Or.inr (by simpa using h1))
    (fun a b c hab hbc => by
      unfold byNewest at hab hbc ⊢
      simp only [decide_eq_true_eq] at hab hbc ⊢
      omega)
    l
  exact h.imp fun hxy => by simpa [byNewest] using hxy

/-- The ranking pass is a permutation of the filtered list. -/
theorem rankedSort_perm (l : List ParsedMessage) : (rankedSort l).Perm l :=
  stableSortBy_perm byNewest l

/-- Stability of the ranking pass: messages with any fixed sort key appear in
their original relative order. -/
theorem rankedSort_stable (l : List ParsedMessage) (k : Int) :
    (rankedSort l).filter (fun m => sortKey m == k)
      = l.filter (fun m => sortKey m == k) :=
  filter_stableSortBy_key sortKey k l

/-! ### Unfolding lemmas for the query predicates -/

theorem matchesQuery_word (tn q : Str) :
    matchesQuery tn q MatchMode.word
      = if (trimStr q).isEmpty then true
        else if (parseTerms q).isEmpty then true
        else (parseTerms q).all fun term => wholeWordMatch tn term := by
  unfold matchesQuery
  rw [parseTerms_trimStr]

theorem matchesExclude_eq (tn ex : Str) :
    matchesExclude tn ex
      = if (trimStr ex).isEmpty then false
        else if (parseTerms ex).isEmpty then false
        else (parseTerms ex).any fun term => strIncludes tn term := by
  unfold matchesExclude
  rw [parseTerms_trimStr]

theorem strIncludes_false_of_not_excluded {tn ex : Str}
    (h : matchesExclude tn ex = false) :
    ∀ t ∈ parseTerms ex, strIncludes tn t = false := by
  intro t ht
  rw [matchesExclude_eq] at h
  by_cases hq : (trimStr ex).isEmpty
  · have hnil : parseTerms ex = [] :=
      parseTerms_eq_nil_of_trim_nil ex (by simpa using hq)
    rw [hnil] at ht
    cases ht
  · rw [if_neg hq] at h
    by_cases h2 : (parseTerms ex).isEmpty
    · have hnil : parseTerms ex = [] := by simpa using h2
      rw [hnil] at ht
      cases ht
    · rw [if_neg h2] at h
      rw [List.any_eq_false] at h
      simpa using h t ht

/-- C4: in WholeWord ("word") match mode a message passes the text-match
predicate exactly when every lowercase whitespace-separated term of `q`
occurs in `textNorm` case-insensitively with a regex word boundary on both
sides; a `q` with no terms (empty or whitespace-only) matches every
message. -/
theorem word_mode_matches_iff (tn q : Str) :
    (matchesQuery tn q MatchMode.word = true ↔
      ∀ t ∈ parseTerms q, ∃ i, i ≤ tn.length ∧ matchTermAt tn t i = true ∧
        boundaryAt tn i = true ∧ boundaryAt tn (i + t.length) = true) ∧
    (parseTerms q = [] → matchesQuery tn q MatchMode.word = true) := by
  have hword : ∀ t, wholeWordMatch tn t = true ↔
      ∃ i, i ≤ tn.length ∧ matchTermAt tn t i = true ∧
        boundaryAt tn i = true ∧ boundaryAt tn (i + t.length) = true := by
    intro t
    unfold wholeWordMatch
    rw [List.any_eq_true]
    constructor
    · rintro ⟨i, hi, hcond⟩
      simp only [Bool.and_eq_true] at hcond
      exact ⟨i, Nat.lt_succ_iff.mp (List.mem_range.mp hi),
        hcond.1.1, hcond.1.2, hcond.2⟩
    · rintro ⟨i, hi, h1, h2, h3⟩
      exact ⟨i, List.mem_range.mpr (Nat.lt_succ_iff.mpr hi),
        by simp [h1, h2, h3]⟩
  constructor
  · rw [matchesQuery_word]
    by_cases hq : (trimStr q).isEmpty
    · have hnil : parseTerms q = [] :=
        parseTerms_eq_nil_of_trim_nil q (by simpa using hq)
      simp [hq, hnil]
    · rw [if_neg hq]
      by_cases ht : (parseTerms q).isEmpty
      · have hnil : parseTerms q = [] := by simpa using ht
        simp [ht, hnil]
      · rw [if_neg ht, List.all_eq_true]
        constructor
        · intro h t htm
          exact (hword t).mp (h t htm)
        · intro h t htm
          exact (hword t).mpr (h t htm)
  · intro hnil
    rw [matchesQuery_word, hnil]
    by_cases hq : (trimStr q).isEmpty <;> simp [hq]

/-! ### The filter conjunction (C1) -/

theorem exists_source_of_mem_results {msgs : List ParsedMessage}
    {p : SearchParams} {h : SearchHit}
    (hmem : h ∈ (searchMessages msgs p).results) :
    ∃ m, m ∈ msgs ∧ keepMessage p m = true ∧ h = mkHit p m := by
  unfold searchMessages at hmem
  simp only at hmem
  rcases List.mem_map.mp hmem with ⟨m, hm, hmk⟩
  have hm2 : m ∈ rankedSort (msgs.filter (keepMessage p)) :=
    List.mem_of_mem_drop (List.mem_of_mem_take hm)
  have hm3 : m ∈ msgs.filter (keepMessage p) :=
    (rankedSort_perm _).mem_iff.mp hm2
  have hm4 := List.mem_filter.mp hm3
  exact ⟨m, hm4.1, hm4.2, hmk.symm⟩

/-- C1 (amended): every returned hit arises from a stored message that passes
every active filter predicate — sender equality when `query.sender` is a
non-empty string (the source treats an empty sender string as "not set"),
no exclude term occurring in `textNorm`, a present `timestampMs` inside each
active inclusive bound, and the text-match predicate for the query's match
mode. -/
theorem results_satisfy_filters (msgs : List ParsedMessage) (p : SearchParams)
    (h : SearchHit) (hmem : h ∈ (searchMessages msgs p).results) :
    ∃ m, m ∈ msgs ∧ h = mkHit p m ∧
      (∀ s, p.sender = some s → s ≠ [] → h.sender = s) ∧
      (∀ ex, p.exclude = some ex → ∀ t ∈ parseTerms ex,
        strIncludes m.textNorm t = false) ∧
      (∀ f, p.fromMs = some f → ∃ ts, h.timestampMs = some ts ∧ f ≤ ts) ∧
      (∀ u, p.toMs = some u → ∃ ts, h.timestampMs = some ts ∧ ts ≤ u) ∧
      matchesQuery m.textNorm p.q (p.matchMode.getD MatchMode.substring)
        = true := by
  rcases exists_source_of_mem_results hmem with ⟨m, hm, hkeep, hmk⟩
  unfold keepMessage at hkeep
  simp only [Bool.and_eq_true] at hkeep
  obtain ⟨⟨⟨⟨hsender, hexcl⟩, hfrom⟩, hto⟩, hmatch⟩ := hkeep
  have hhs : h.sender = m.sender := by rw [hmk]; rfl
  have hht : h.timestampMs = m.timestampMs := by rw [hmk]; rfl
  refine ⟨m, hm, hmk, ?_, ?_, ?_, ?_, hmatch⟩
  · intro s hs hne
    rw [hs] at hsender
    simp only [Bool.or_eq_true] at hsender
    rcases hsender with h1 | h1
    · exact absurd (by simpa using h1) hne
    · rw [hhs]
      simpa using h1
  · intro ex hex
    rw [hex] at hexcl
    simp only [Bool.not_eq_true'] at hexcl
    exact strIncludes_false_of_not_excluded hexcl
  · intro f hf
    rw [hf] at hfrom
    rw [hht]
    cases hts : m.timestampMs with
    | none => rw [hts] at hfrom; cases hfrom
    | some t =>
      rw [hts] at hfrom
      exact ⟨t, rfl, by simpa using hfrom⟩
  · intro u hu
    rw [hu] at hto
    rw [hht]
    cases hts : m.timestampMs with
    | none => rw [hts] at hto; cases hto
    | some t =>
      rw [hts] at hto
      exact ⟨t, rfl, by simpa using hto⟩

/-- C1 counterexample: with `sender` present but equal to the empty string,
the sender filter of the source is inactive, so a hit whose sender is `"s"`
is returned even though it differs from the query's sender value. -/
theorem empty_sender_filter_inactive :
    emptySenderParams.sender = some [] ∧
    (searchMessages [wMsg] emptySenderParams).results.map SearchHit.sender
      = [['s']] := by
  exact ⟨rfl, by decide⟩

/-- C1 witness: the filter-conjunction theorem applied to a query with every
predicate active. -/
theorem results_satisfy_filters_witness :
    ∃ m, m ∈ [wMsg] ∧ mkHit fullParams wMsg = mkHit fullParams m ∧
      (∀ s, fullParams.sender = some s → s ≠ [] →
        (mkHit fullParams wMsg).sender = s) ∧
      (∀ ex, fullParams.exclude = some ex → ∀ t ∈ parseTerms ex,
        strIncludes m.textNorm t = false) ∧
      (∀ f, fullParams.fromMs = some f →
        ∃ ts, (mkHit fullParams wMsg).timestampMs = some ts ∧ f ≤ ts) ∧
      (∀ u, fullParams.toMs = some u →
        ∃ ts, (mkHit fullParams wMsg).timestampMs = some ts ∧ ts ≤ u) ∧
      matchesQuery m.textNorm fullParams.q
        (fullParams.matchMode.getD MatchMode.substring) = true :=
  results_satisfy_filters [wMsg] fullParams (mkHit fullParams wMsg) (by decide)

/-! ### Ranking order and stability (C2) -/

/-- C2 counterexample: a message with timestamp `-2` and a message with no
timestamp both match the unfiltered query, and the timestampless message is
ranked first — it does not sort after all messages that have a timestamp. -/
theorem ranking_counterexample :
    (searchMessages [preEpochMsg, noTsMsg] allParams).results.map
        SearchHit.timestampMs = [none, some (-2)] := by
  decide

/-- C2 (amended): the results are the paginated window of the ranked match
list, where ranking sorts by `timestampMs` descending after replacing a
missing timestamp by the sentinel `-1` — so timestampless messages sort after
every message with timestamp `≥ 0`, tie with timestamp `-1`, and come before
any earlier (pre-1970, `< -1`) timestamp — and the sort is stable: messages
with equal sort key keep their original extraction order. -/
theorem ranking_sentinel_stable (msgs : List ParsedMessage) (p : SearchParams) :
    (searchMessages msgs p).results
      = (((rankedSort (msgs.filter (keepMessage p))).drop p.offset).take
          p.limit).map (mkHit p)
    ∧ (rankedSort (msgs.filter (keepMessage p))).Perm
        (msgs.filter (keepMessage p))
    ∧ (rankedSort (msgs.filter (keepMessage p))).Pairwise
        (fun a b => sortKey b ≤ sortKey a)
    ∧ ∀ k : Int,
        (rankedSort (msgs.filter (keepMessage p))).filter
            (fun m => sortKey m == k)
          = (msgs.filter (keepMessage p)).filter (fun m => sortKey m == k) :=
  ⟨rfl, rankedSort_perm _, rankedSort_pairwise _,
    fun k => rankedSort_stable _ k⟩

/-! ### Pagination (C3) -/

theorem range_flatMap_slices (l : List α) (k : Nat) (n : Nat) :
    (List.range n).flatMap (fun i => (l.drop (i * k)).take k)
      = l.take (n * k) := by
  induction n with
  | zero => simp
  | succ n ih =>
    rw [List.range_succ, List.flatMap_append, ih]
    simp only [List.flatMap_cons, List.flatMap_nil, List.append_nil]
    rw [Nat.succ_mul, List.take_add]

/-- C3: `total` counts all matches before slicing, `results` is the window
`[offset, offset+limit)` of the ranked match list, and the pages of size `k`
concatenate back to the entire ranked match list with no duplicates or
gaps. -/
theorem pagination_exact (msgs : List ParsedMessage) (p : SearchParams)
    (k n : Nat) (hk : 0 < k)
    (hn : (searchMessages msgs p).total ≤ n * k) :
    (searchMessages msgs p).total = (msgs.filter (keepMessage p)).length ∧
    (searchMessages msgs p).results
      = (((rankedSort (msgs.filter (keepMessage p))).drop p.offset).take
          p.limit).map (mkHit p) ∧
    (List.range n).flatMap (fun i =>
        (searchMessages msgs { p with offset := i * k, limit := k }).results)
      = (rankedSort (msgs.filter (keepMessage p))).map (mkHit p) := by
  refine ⟨(rankedSort_perm _).length_eq, rfl, ?_⟩
  have hlen : (rankedSort (msgs.filter (keepMessage p))).length ≤ n * k := hn
  have hpage : ∀ i,
      (searchMessages msgs { p with offset := i * k, limit := k }).results
        = (((rankedSort (msgs.filter (keepMessage p))).drop (i * k)).take
            k).map (mkHit p) := fun i => rfl
  calc (List.range n).flatMap (fun i =>
        (searchMessages msgs { p with offset := i * k, limit := k }).results)
      = (List.range n).flatMap (fun i =>
          (((rankedSort (msgs.filter (keepMessage p))).drop (i * k)).take
            k).map (mkHit p)) := by simp only [hpage]
    _ = ((List.range n).flatMap (fun i =>
          ((rankedSort (msgs.filter (keepMessage p))).drop (i * k)).take
            k)).map (mkHit p) := (List.map_flatMap _ _ _).symm
    _ = ((rankedSort (msgs.filter (keepMessage p))).take (n * k)).map
          (mkHit p) := by rw [range_flatMap_slices]
    _ = (rankedSort (msgs.filter (keepMessage p))).map (mkHit p) := by
          rw [List.take_of_length_le hlen]

/-- C3 witness: pagination exactness at a one-element dataset with page size
one. -/
theorem pagination_exact_witness :
    (searchMessages [preEpochMsg] allParams).total
        = ([preEpochMsg].filter (keepMessage allParams)).length ∧
    (searchMessages [preEpochMsg] allParams).results
      = (((rankedSort ([preEpochMsg].filter
          (keepMessage allParams))).drop allParams.offset).take
          allParams.limit).map (mkHit allParams) ∧
    (List.range 1).flatMap (fun i =>
        (searchMessages [preEpochMsg]
          { allParams with offset := i * 1, limit := 1 }).results)
      = (rankedSort ([preEpochMsg].filter (keepMessage allParams))).map
          (mkHit allParams) :=
  pagination_exact [preEpochMsg] allParams 1 1 (by decide) (by decide)

/-! ### Merge search totals (C5) -/

theorem searchMessages_results_def (msgs : List ParsedMessage)
    (p : SearchParams) :
    (searchMessages msgs p).results
      = (((rankedSort (msgs.filter (keepMessage p))).drop p.offset).take
          p.limit).map (mkHit p) := rfl

theorem searchMessages_total_def (msgs : List ParsedMessage)
    (p : SearchParams) :
    (searchMessages msgs p).total
      = (rankedSort (msgs.filter (keepMessage p))).length := rfl

theorem results_length_of_unlimited (msgs : List ParsedMessage)
    (p : SearchParams) (hoff : p.offset = 0)
    (hlim : (msgs.filter (keepMessage p)).length ≤ p.limit) :
    (searchMessages msgs p).results.length = (searchMessages msgs p).total := by
  rw [searchMessages_results_def, searchMessages_total_def, List.length_map,
    List.length_take, List.length_drop, hoff,
    (rankedSort_perm (msgs.filter (keepMessage p))).length_eq]
  omega

/-- C5: the merge search evaluates the query per dataset with `offset = 0`
and the effectively unlimited limit `max 1 |messages|`, and its `total` is
the sum of the per-dataset match counts; in particular over two datasets it
is `total_A + total_B`. -/
theorem merge_search_total (ds : List DatasetEntry) (a b : DatasetEntry)
    (p : SearchParams) :
    (searchAllMerged ds p).1
      = (ds.map (fun e => (searchMessages e.messages
          (unlimitedParams p e.messages.length)).total)).sum
    ∧ (searchAllMerged [a, b] p).1
      = (searchMessages a.messages (unlimitedParams p a.messages.length)).total
        + (searchMessages b.messages
            (unlimitedParams p b.messages.length)).total := by
  have hone : ∀ e : DatasetEntry,
      ((searchMessages e.messages
          (unlimitedParams p e.messages.length)).results.map
        (wrapHit e (stableSortBy ascByTimestamp e.messages))).length
      = (searchMessages e.messages
          (unlimitedParams p e.messages.length)).total := by
    intro e
    rw [List.length_map]
    exact results_length_of_unlimited _ _ rfl
      (le_trans (List.length_filter_le _ _) (Nat.le_max_right 1 _))
  have hmain : ∀ ds2 : List DatasetEntry, (searchAllMerged ds2 p).1
      = (ds2.map (fun e => (searchMessages e.messages
          (unlimitedParams p e.messages.length)).total)).sum := by
    intro ds2
    show (ds2.flatMap _).length = _
    rw [List.length_flatMap]
    congr 1
    exact List.map_congr_left fun e _ => hone e
  refine ⟨hmain ds, ?_⟩
  rw [hmain [a, b]]
  simp

/-! ### Metadata min/max timestamps (C7) -/

theorem foldl_min_le_init (l : List Int) (a : Int) : l.foldl min a ≤ a := by
  induction l generalizing a with
  | nil => exact le_refl a
  | cons x xs ih => exact le_trans (ih (min a x)) (min_le_left a x)

theorem foldl_min_le_mem (l : List Int) (a : Int) :
    ∀ x ∈ l, l.foldl min a ≤ x := by
  induction l generalizing a with
  | nil => intro x hx; cases hx
  | cons y ys ih =>
    intro x hx
    rcases List.mem_cons.mp hx with h1 | h2
    · subst h1
      exact le_trans (foldl_min_le_init ys (min a x)) (min_le_right a x)
    · exact ih (min a y) x h2

theorem foldl_min_mem (l : List Int) (a : Int) :
    l.foldl min a = a ∨ l.foldl min a ∈ l := by
  induction l generalizing a with
  | nil => exact Or.inl rfl
  | cons x xs ih =>
    rcases ih (min a x) with h | h
    · rcases min_cases a x with ⟨h2, _⟩ | ⟨h2, _⟩
      · exact Or.inl (by rw [List.foldl_cons, h, h2])
      · refine Or.inr (List.mem_cons.mpr (Or.inl ?_))
        rw [List.foldl_cons, h, h2]
    · exact Or.inr (List.mem_cons.mpr (Or.inr h))

theorem foldl_max_init_le (l : List Int) (a : Int) : a ≤ l.foldl max a := by
  induction l generalizing a with
  | nil => exact le_refl a
  | cons x xs ih => exact le_trans (le_max_left a x) (ih (max a x))

theorem foldl_max_mem_le (l : List Int) (a : Int) :
    ∀ x ∈ l, x ≤ l.foldl max a := by
  induction l generalizing a with
  | nil => intro x hx; cases hx
  | cons y ys ih =>
    intro x hx
    rcases List.mem_cons.mp hx with h1 | h2
    · subst h1
      exact le_trans (le_max_right a x) (foldl_max_init_le ys (max a x))
    · exact ih (max a y) x h2

theorem foldl_max_mem (l : List Int) (a : Int) :
    l.foldl max a = a ∨ l.foldl max a ∈ l := by
  induction l generalizing a with
  | nil => exact Or.inl rfl
  | cons x xs ih =>
    rcases ih (max a x) with h | h
    · rcases max_cases a x with ⟨h2, _⟩ | ⟨h2, _⟩
      · exact Or.inl (by rw [List.foldl_cons, h, h2])
      · refine Or.inr (List.mem_cons.mpr (Or.inl ?_))
        rw [List.foldl_cons, h, h2]
    · exact Or.inr (List.mem_cons.mpr (Or.inr h))

theorem timestamps_eq_filterMap (msgs : List ParsedMessage) :
    (msgs.map (fun m => m.timestampMs)).filterMap id
      = msgs.filterMap (fun m => m.timestampMs) := by
  rw [List.filterMap_map]
  rfl

/-- C7: `minTimestampMs`/`maxTimestampMs` are the minimum and maximum of
`timestampMs` over the messages that have one, and both are absent exactly
when no message has a timestamp. -/
theorem meta_min_max (fileId originalName : Str)
    (msgs : List ParsedMessage) (now : Int) :
    ((computeMeta fileId originalName msgs now).minTimestampMs = none ↔
      ∀ m ∈ msgs, m.timestampMs = none) ∧
    ((computeMeta fileId originalName msgs now).maxTimestampMs = none ↔
      ∀ m ∈ msgs, m.timestampMs = none) ∧
    (∀ v, (computeMeta fileId originalName msgs now).minTimestampMs = some v →
      (∃ m ∈ msgs, m.timestampMs = some v) ∧
      ∀ m ∈ msgs, ∀ t, m.timestampMs = some t → v ≤ t) ∧
    (∀ v, (computeMeta fileId originalName msgs now).maxTimestampMs = some v →
      (∃ m ∈ msgs, m.timestampMs = some v) ∧
      ∀ m ∈ msgs, ∀ t, m.timestampMs = some t → t ≤ v) := by
  have hmin : (computeMeta fileId originalName msgs now).minTimestampMs
      = listMinOpt (msgs.filterMap (fun m => m.timestampMs)) := by
    show listMinOpt ((msgs.map (fun m => m.timestampMs)).filterMap id) = _
    rw [timestamps_eq_filterMap]
  have hmax : (computeMeta fileId originalName msgs now).maxTimestampMs
      = listMaxOpt (msgs.filterMap (fun m => m.timestampMs)) := by
    show listMaxOpt ((msgs.map (fun m => m.timestampMs)).filterMap id) = _
    rw [timestamps_eq_filterMap]
  have hnil : msgs.filterMap (fun m => m.timestampMs) = [] ↔
      ∀ m ∈ msgs, m.timestampMs = none := List.filterMap_eq_nil_iff
  have hmem : ∀ v, v ∈ msgs.filterMap (fun m => m.timestampMs) ↔
      ∃ m ∈ msgs, m.timestampMs = some v := fun v => List.mem_filterMap
  refine ⟨?_, ?_, ?_, ?_⟩
  · rw [hmin]
    cases hts : msgs.filterMap (fun m => m.timestampMs) with
    | nil => simpa [listMinOpt] using hnil.mp hts
    | cons x xs =>
      simp only [listMinOpt]
      constructor
      · intro h; cases h
      · intro h
        have : (x :: xs) = [] := by rw [← hts]; exact hnil.mpr h
        cases this
  · rw [hmax]
    cases hts : msgs.filterMap (fun m => m.timestampMs) with
    | nil => simpa [listMaxOpt] using hnil.mp hts
    | cons x xs =>
      simp only [listMaxOpt]
      constructor
      · intro h; cases h
      · intro h
        have : (x :: xs) = [] := by rw [← hts]; exact hnil.mpr h
        cases this
  · intro v hv
    rw [hmin] at hv
    cases hts : msgs.filterMap (fun m => m.timestampMs) with
    | nil => rw [hts] at hv; cases hv
    | cons x xs =>
      rw [hts] at hv
      simp only [listMinOpt, Option.some.injEq] at hv
      constructor
      · have hin : v ∈ x :: xs := by
          rcases foldl_min_mem xs x with h | h
          · exact List.mem_cons.mpr (Or.inl (by rw [← hv, h]))
          · exact List.mem_cons.mpr (Or.inr (by rw [← hv]; exact h))
        rw [← hts] at hin
        exact (hmem v).mp hin
      · intro m hm t ht
        have htin : t ∈ msgs.filterMap (fun m => m.timestampMs) :=
          (hmem t).mpr ⟨m, hm, ht⟩
        rw [hts] at htin
        rcases List.mem_cons.mp htin with h1 | h2
        · subst h1
          rw [← hv]
          exact foldl_min_le_init xs t
        · rw [← hv]
          exact foldl_min_le_mem xs x t h2
  · intro v hv
    rw [hmax] at hv
    cases hts : msgs.filterMap (fun m => m.timestampMs) with
    | nil => rw [hts] at hv; cases hv
    | cons x xs =>
      rw [hts] at hv
      simp only [listMaxOpt, Option.some.injEq] at hv
      constructor
      · have hin : v ∈ x :: xs := by
          rcases foldl_max_mem xs x with h | h
          · exact List.mem_cons.mpr (Or.inl (by rw [← hv, h]))
          · exact List.mem_cons.mpr (Or.inr (by rw [← hv]; exact h))
        rw [← hts] at hin
        exact (hmem v).mp hin
      · intro m hm t ht
        have htin : t ∈ msgs.filterMap (fun m => m.timestampMs) :=
          (hmem t).mpr ⟨m, hm, ht⟩
        rw [hts] at htin
        rcases List.mem_cons.mp htin with h1 | h2
        · subst h1
          rw [← hv]
          exact foldl_max_init_le xs t
        · rw [← hv]
          exact foldl_max_mem_le xs x t h2

/-- C7 witness: the metadata theorem applied to three concrete messages with
timestamps `5`, absent and `-2`, whose minimum is `-2`. -/
theorem meta_min_max_witness :
    (∃ m ∈ [wMsg, noTsMsg, preEpochMsg], m.timestampMs = some (-2)) ∧
    ∀ m ∈ [wMsg, noTsMsg, preEpochMsg], ∀ t, m.timestampMs = some t →
      -2 ≤ t :=
  (meta_min_max ['f'] ['n'] [wMsg, noTsMsg, preEpochMsg] 9).2.2.1 (-2)
    (by decide)

/-! ### Timestamp round trip (C8) -/

theorem epochMs_shift (tzOffsetMin : Int) (f : DateFields) :
    epochMsOfLocalFields tzOffsetMin f
      = epochMsOfLocalFields 0 f - tzOffsetMin * 60000 := by
  unfold epochMsOfLocalFields
  ring

/-- C8: the raw timestamp `"Mar 16, 2023 11:23 pm"` parses in both the node
parser (structured format first) and the browser parser (generic parse
first) to the epoch milliseconds of 2023-03-16 23:23:00 in the ambient local
zone (`tzOffsetMin` minutes east of UTC). -/
theorem timestamp_roundtrip (tzOffsetMin : Int) :
    parseTimestampMsNode tzOffsetMin marRaw
      = some (epochMsOfLocalFields tzOffsetMin ⟨2023, 2, 16, 23, 23⟩) ∧
    parseTimestampMsBrowser tzOffsetMin marRaw
      = some (epochMsOfLocalFields tzOffsetMin ⟨2023, 2, 16, 23, 23⟩) ∧
    epochMsOfLocalFields tzOffsetMin ⟨2023, 2, 16, 23, 23⟩
      = 1679008980000 - tzOffsetMin * 60000 := by
  have hs : structuredMatch (trimStr marRaw)
      = some ⟨2023, 2, 16, 23, 23⟩ := by decide
  have htrim : (trimStr marRaw).isEmpty = false := by decide
  refine ⟨?_, ?_, ?_⟩
  · unfold parseTimestampMsNode luxonFromFormatMillis
    rw [hs, if_neg (by simp [htrim])]
    rfl
  · unfold parseTimestampMsBrowser dateParseGeneric
    rw [hs, if_neg (by simp [htrim])]
    rfl
  · rw [epochMs_shift]
    have : epochMsOfLocalFields 0 ⟨2023, 2, 16, 23, 23⟩ = 1679008980000 := by
      decide
    rw [this]

/-! ### Unknown datasets report not-found (C9) -/

/-- C9: a lookup of a `fileId` with no stored dataset fails — the browser
store rejects with `"Unknown fileId"` and the HTTP search surface answers
404 — and in particular never produces a 200 payload (so never
`{total: 0, results: []}`). -/
theorem unknown_dataset_not_found (db : JsMap BrowserStoredFile)
    (st : NodeStore) (fileId q : Str) (sender : Option Str)
    (fromMs toMs : Option Int) (offset limit : Nat) (now : Int)
    (hdb : List.lookup fileId db = none)
    (hcache : List.lookup fileId st.cache = none)
    (hdisk : List.lookup fileId st.disk = none) :
    loadParsedFileBrowser db fileId = .error "Unknown fileId" ∧
    (readableSearchGet st fileId q sender fromMs toMs offset limit now).1
      = .jsonError 404
          "Unknown fileId (not uploaded yet, or data was deleted)." ∧
    ∀ fid meta total off lim results,
      (readableSearchGet st fileId q sender fromMs toMs offset limit now).1
        ≠ .ok fid meta total off lim results := by
  have hload : loadParsedFile st fileId now = none := by
    unfold loadParsedFile
    rw [hcache, hdisk]
  refine ⟨?_, ?_, ?_⟩
  · unfold loadParsedFileBrowser
    rw [hdb]
  · unfold readableSearchGet
    rw [hload]
  · intro fid meta total off lim results
    unfold readableSearchGet
    rw [hload]
    simp

/-- C9 witness: the not-found theorem applied to the empty browser store and
the empty node store at the key `"z"`. -/
theorem unknown_dataset_not_found_witness :
    loadParsedFileBrowser [] ['z'] = .error "Unknown fileId" ∧
    (readableSearchGet emptyStore ['z'] [] none none none 0 10 0).1
      = .jsonError 404
          "Unknown fileId (not uploaded yet, or data was deleted)." ∧
    ∀ fid meta total off lim results,
      (readableSearchGet emptyStore ['z'] [] none none none 0 10 0).1
        ≠ .ok fid meta total off lim results :=
  unknown_dataset_not_found [] emptyStore ['z'] [] none none none 0 10 0
    rfl rfl rfl

/-! ### Map and cache lemmas (C6) -/

theorem mem_keys_of_lookup_some {β : Type} {l : JsMap β} {k : Str} {v : β}
    (h : List.lookup k l = some v) : k ∈ l.map Prod.fst := by
  induction l with
  | nil => cases h
  | cons q rest ih =>
    obtain ⟨k2, v2⟩ := q
    by_cases hk : k = k2
    · exact List.mem_cons.mpr (Or.inl hk)
    · have hbeq : (k == k2) = false := beq_eq_false_iff_ne.mpr hk
      simp only [List.lookup, hbeq] at h
      exact List.mem_cons.mpr (Or.inr (ih h))

theorem mapSet_length {β : Type} (l : JsMap β) (k : Str) (v : β) :
    (mapSet l k v).length
      = if k ∈ l.map Prod.fst then l.length else l.length + 1 := by
  induction l with
  | nil => simp [mapSet]
  | cons q rest ih =>
    obtain ⟨k2, v2⟩ := q
    by_cases hk : k2 = k
    · subst hk
      have hbeq : (k2 == k2) = true := by simp
      simp only [mapSet, hbeq, if_true, List.map_cons, List.length_cons]
      rw [if_pos (List.mem_cons.mpr (Or.inl rfl))]
    · have hbeq : (k2 == k) = false := beq_eq_false_iff_ne.mpr hk
      have hne2 : ¬ (k = k2) := fun hcon => hk hcon.symm
      simp only [mapSet, hbeq, Bool.false_eq_true, if_false,
        List.length_cons, ih, List.map_cons]
      by_cases hmem : k ∈ rest.map Prod.fst
      · rw [if_pos hmem, if_pos (List.mem_cons.mpr (Or.inr hmem))]
      · rw [if_neg hmem, if_neg (fun hcon => by
          rcases List.mem_cons.mp hcon with h1 | h1
          · exact hne2 h1
          · exact hmem h1)]

theorem mem_mapSet {β : Type} (l : JsMap β) (k : Str) (v : β) :
    ∀ q ∈ mapSet l k v, q = (k, v) ∨ q ∈ l := by
  induction l with
  | nil =>
    intro q hq
    simp [mapSet] at hq
    exact Or.inl hq
  | cons p2 rest ih =>
    obtain ⟨k2, v2⟩ := p2
    intro q hq
    by_cases hk : k2 = k
    · have hbeq : (k2 == k) = true := by simp [hk]
      simp only [mapSet, hbeq, if_true] at hq
      rcases List.mem_cons.mp hq with h1 | h1
      · exact Or.inl h1
      · exact Or.inr (List.mem_cons.mpr (Or.inr h1))
    · have hbeq : (k2 == k) = false := beq_eq_false_iff_ne.mpr hk
      simp only [mapSet, hbeq, Bool.false_eq_true, if_false] at hq
      rcases List.mem_cons.mp hq with h1 | h1
      · exact Or.inr (List.mem_cons.mpr (Or.inl h1))
      · rcases ih q h1 with h2 | h2
        · exact Or.inl h2
        · exact Or.inr (List.mem_cons.mpr (Or.inr h2))

theorem keys_mapSet_subset {β : Type} (l : JsMap β) (k : Str) (v : β) :
    ∀ x ∈ (mapSet l k v).map Prod.fst, x = k ∨ x ∈ l.map Prod.fst := by
  intro x hx
  rcases List.mem_map.mp hx with ⟨q, hq, hqx⟩
  rcases mem_mapSet l k v q hq with h1 | h1
  · rw [← hqx, h1]
    exact Or.inl rfl
  · exact Or.inr (List.mem_map.mpr ⟨q, h1, hqx⟩)

theorem nodup_keys_mapSet {β : Type} (l : JsMap β) (k : Str) (v : β)
    (h : (l.map Prod.fst).Nodup) : ((mapSet l k v).map Prod.fst).Nodup := by
  induction l with
  | nil => simp [mapSet]
  | cons p2 rest ih =>
    obtain ⟨k2, v2⟩ := p2
    simp only [List.map_cons, List.nodup_cons] at h
    by_cases hk : k2 = k
    · subst hk
      have hbeq : (k2 == k2) = true := by simp
      simp only [mapSet, hbeq, if_true, List.map_cons]
      exact List.nodup_cons.mpr ⟨h.1, h.2⟩
    · have hbeq : (k2 == k) = false := beq_eq_false_iff_ne.mpr hk
      simp only [mapSet, hbeq, Bool.false_eq_true, if_false, List.map_cons]
      refine List.nodup_cons.mpr ⟨?_, ih h.2⟩
      intro hmem
      rcases keys_mapSet_subset rest k v k2 hmem with h1 | h1
      · exact hk h1
      · exact h.1 h1

theorem mapDelete_sublist {β : Type} (l : JsMap β) (k : Str) :
    (mapDelete l k).Sublist l := by
  induction l with
  | nil => exact List.Sublist.refl _
  | cons q rest ih =>
    obtain ⟨k2, v2⟩ := q
    by_cases hk : k2 = k
    · have hbeq : (k2 == k) = true := by simp [hk]
      simp only [mapDelete, hbeq, if_true]
      exact List.sublist_cons_self _ _
    · have hbeq : (k2 == k) = false := beq_eq_false_iff_ne.mpr hk
      simp only [mapDelete, hbeq, Bool.false_eq_true, if_false]
      exact List.Sublist.cons₂ _ ih

theorem mapDelete_length_of_mem {β : Type} (l : JsMap β) (k : Str)
    (h : k ∈ l.map Prod.fst) : (mapDelete l k).length + 1 = l.length := by
  induction l with
  | nil => cases h
  | cons q rest ih =>
    obtain ⟨k2, v2⟩ := q
    by_cases hk : k2 = k
    · have hbeq : (k2 == k) = true := by simp [hk]
      simp only [mapDelete, hbeq, if_true, List.length_cons]
    · have hbeq : (k2 == k) = false := beq_eq_false_iff_ne.mpr hk
      rw [List.map_cons] at h
      have hmem : k ∈ rest.map Prod.fst := by
        rcases List.mem_cons.mp h with h1 | h1
        · exact absurd h1.symm hk
        · exact h1
      simp only [mapDelete, hbeq, Bool.false_eq_true, if_false,
        List.length_cons]
      have := ih hmem
      omega

theorem findOldestGo_spec (l : JsMap CacheEntry) (k0 : Str) (t0 : Int) :
    (findOldestGo l k0 t0).2 ≤ t0 ∧
    (∀ q ∈ l, (findOldestGo l k0 t0).2 ≤ q.2.lastAccessMs) ∧
    (findOldestGo l k0 t0 = (k0, t0) ∨
      ∃ l1 e l2, l = l1 ++ ((findOldestGo l k0 t0).1, e) :: l2 ∧
        e.lastAccessMs = (findOldestGo l k0 t0).2 ∧
        (findOldestGo l k0 t0).2 < t0 ∧
        ∀ q ∈ l1, (findOldestGo l k0 t0).2 < q.2.lastAccessMs) := by
  induction l generalizing k0 t0 with
  | nil =>
    exact ⟨le_refl t0, (by intro q hq; cases hq), Or.inl rfl⟩
  | cons p2 rest ih =>
    obtain ⟨k2, e2⟩ := p2
    by_cases hlt : e2.lastAccessMs < t0
    · have hgo : findOldestGo ((k2, e2) :: rest) k0 t0
          = findOldestGo rest k2 e2.lastAccessMs := by
        simp [findOldestGo, hlt]
      rcases ih k2 e2.lastAccessMs with ⟨ih1, ih2, ih3⟩
      rw [hgo]
      refine ⟨le_trans ih1 (le_of_lt hlt), ?_, ?_⟩
      · intro q hq
        rcases List.mem_cons.mp hq with h1 | h1
        · rw [h1]
          exact ih1
        · exact ih2 q h1
      · rcases ih3 with h3 | ⟨l1, e, l2, hsplit, he, hlt2, hall⟩
        · refine Or.inr ⟨[], e2, rest, ?_, ?_, ?_, ?_⟩
          · rw [h3]
            rfl
          · rw [h3]
          · rw [h3]
            exact hlt
          · intro q hq
            cases hq
        · refine Or.inr ⟨(k2, e2) :: l1, e, l2,
            congrArg (List.cons (k2, e2)) hsplit, he,
            lt_trans hlt2 hlt, ?_⟩
          intro q hq
          rcases List.mem_cons.mp hq with h1 | h1
          · rw [h1]
            exact hlt2
          · exact hall q h1
    · have hgo : findOldestGo ((k2, e2) :: rest) k0 t0
          = findOldestGo rest k0 t0 := by
        simp [findOldestGo, hlt]
      rcases ih k0 t0 with ⟨ih1, ih2, ih3⟩
      rw [hgo]
      have hge : t0 ≤ e2.lastAccessMs := le_of_not_lt hlt
      refine ⟨ih1, ?_, ?_⟩
      · intro q hq
        rcases List.mem_cons.mp hq with h1 | h1
        · rw [h1]
          exact le_trans ih1 hge
        · exact ih2 q h1
      · rcases ih3 with h3 | ⟨l1, e, l2, hsplit, he, hlt2, hall⟩
        · exact Or.inl h3
        · refine Or.inr ⟨(k2, e2) :: l1, e, l2,
            congrArg (List.cons (k2, e2)) hsplit, he, hlt2, ?_⟩
          intro q hq
          rcases List.mem_cons.mp hq with h1 | h1
          · rw [h1]
            exact lt_of_lt_of_le hlt2 hge
          · exact hall q h1

theorem findOldest_spec (c : JsMap CacheEntry) (k : Str) (t : Int)
    (h : findOldest c = some (k, t)) :
    ∃ l1 e l2, c = l1 ++ (k, e) :: l2 ∧ e.lastAccessMs = t ∧
      (∀ q ∈ l1, t < q.2.lastAccessMs) ∧
      ∀ q ∈ c, t ≤ q.2.lastAccessMs := by
  cases c with
  | nil => cases h
  | cons p2 rest =>
    obtain ⟨k1, e1⟩ := p2
    have hgo : findOldestGo rest k1 e1.lastAccessMs = (k, t) := by
      simpa [findOldest] using h
    rcases findOldestGo_spec rest k1 e1.lastAccessMs with ⟨s1, s2, s3⟩
    rw [hgo] at s1 s2 s3
    rcases s3 with h3 | ⟨l1, e, l2, hsplit, he, hlt2, hall⟩
    · obtain ⟨hk1, ht1⟩ := Prod.mk.inj h3
      subst hk1
      subst ht1
      refine ⟨[], e1, rest, rfl, rfl, (by intro q hq; cases hq), ?_⟩
      intro q hq
      rcases List.mem_cons.mp hq with h1 | h1
      · rw [h1]
      · exact s2 q h1
    · refine ⟨(k1, e1) :: l1, e, l2,
        congrArg (List.cons (k1, e1)) hsplit, he, ?_, ?_⟩
      · intro q hq
        rcases List.mem_cons.mp hq with h1 | h1
        · rw [h1]
          exact hlt2
        · exact hall q h1
      · intro q hq
        rcases List.mem_cons.mp hq with h1 | h1
        · rw [h1]
          exact s1
        · exact s2 q h1

theorem findOldest_of_ne_nil (c : JsMap CacheEntry) (h : c ≠ []) :
    ∃ k t, findOldest c = some (k, t) := by
  cases c with
  | nil => exact absurd rfl h
  | cons q rest =>
    obtain ⟨qk, qe⟩ := q
    exact ⟨(findOldestGo rest qk qe.lastAccessMs).1,
           (findOldestGo rest qk qe.lastAccessMs).2, by simp [findOldest]⟩

theorem evictIfNeeded_over (c : JsMap CacheEntry) (k : Str) (t : Int)
    (hover : ¬ c.length ≤ maxCachedFiles)
    (hkeys : ∀ q ∈ c, q.1 ≠ [])
    (hfind : findOldest c = some (k, t)) :
    evictIfNeeded c = mapDelete c k := by
  rcases findOldest_spec c k t hfind with ⟨l1, e, l2, hsplit, _, _, _⟩
  have hkne : k ≠ [] := by
    refine hkeys (k, e) ?_
    rw [hsplit]
    exact List.mem_append.mpr (Or.inr (List.mem_cons.mpr (Or.inl rfl)))
  have hkemp : k.isEmpty = false := by
    cases k with
    | nil => exact absurd rfl hkne
    | cons _ _ => rfl
  unfold evictIfNeeded
  rw [if_neg hover, hfind]
  show (if k.isEmpty = true then c else mapDelete c k) = mapDelete c k
  rw [if_neg (by simp [hkemp])]

theorem cacheWf_evict_mapSet (c : JsMap CacheEntry) (f : Str) (e : CacheEntry)
    (hwf : CacheWf c) (hf : f ≠ []) :
    CacheWf (evictIfNeeded (mapSet c f e)) := by
  obtain ⟨hnd, hne, hlen⟩ := hwf
  have hnd1 : ((mapSet c f e).map Prod.fst).Nodup := nodup_keys_mapSet c f e hnd
  have hne1 : ∀ q ∈ mapSet c f e, q.1 ≠ [] := by
    intro q hq
    rcases mem_mapSet c f e q hq with h1 | h1
    · rw [h1]
      exact hf
    · exact hne q h1
  have hlen1 : (mapSet c f e).length ≤ maxCachedFiles + 1 := by
    rw [mapSet_length]
    by_cases hv : f ∈ c.map Prod.fst <;> simp [hv] <;> omega
  unfold evictIfNeeded
  by_cases hsz : (mapSet c f e).length ≤ maxCachedFiles
  · rw [if_pos hsz]
    exact ⟨hnd1, hne1, hsz⟩
  · rw [if_neg hsz]
    have hnonnil : mapSet c f e ≠ [] := by
      intro hcon
      rw [hcon] at hsz
      simp [maxCachedFiles] at hsz
    obtain ⟨k, t, hfind⟩ := findOldest_of_ne_nil _ hnonnil
    rw [hfind]
    rcases findOldest_spec _ k t hfind with ⟨l1, e2, l2, hsplit, _, _, _⟩
    show CacheWf (if k.isEmpty = true then mapSet c f e
      else mapDelete (mapSet c f e) k)
    have hkmem : (k, e2) ∈ mapSet c f e := by
      rw [hsplit]
      exact List.mem_append.mpr (Or.inr (List.mem_cons.mpr (Or.inl rfl)))
    have hkne : k ≠ [] := hne1 (k, e2) hkmem
    have hkemp : k.isEmpty = false := by
      cases k with
      | nil => exact absurd rfl hkne
      | cons _ _ => rfl
    rw [if_neg (by simp [hkemp])]
    refine ⟨?_, ?_, ?_⟩
    · exact List.Nodup.sublist ((mapDelete_sublist _ k).map Prod.fst) hnd1
    · intro q hq
      exact hne1 q (List.Sublist.mem hq (mapDelete_sublist _ k))
    · have hkmem2 : k ∈ (mapSet c f e).map Prod.fst :=
        List.mem_map.mpr ⟨(k, e2), hkmem, rfl⟩
      have hdel := mapDelete_length_of_mem _ k hkmem2
      omega

theorem cacheWf_applyOp (st : NodeStore) (op : StoreOp)
    (hwf : CacheWf st.cache) (hop : op.fileId ≠ []) :
    CacheWf (applyOp st op).cache := by
  cases op with
  | put f n m t => exact cacheWf_evict_mapSet st.cache f _ hwf hop
  | get f t =>
    show CacheWf (match loadParsedFile st f t with
      | some (st2, _, _) => st2
      | none => st).cache
    cases hl : List.lookup f st.cache with
    | some e2 =>
      have hload : loadParsedFile st f t
          = some (⟨mapSet st.cache f { e2 with lastAccessMs := t }, st.disk⟩,
              e2.meta, e2.messages) := by
        unfold loadParsedFile
        rw [hl]
      rw [hload]
      obtain ⟨hnd, hne, hlen⟩ := hwf
      refine ⟨nodup_keys_mapSet _ _ _ hnd, ?_, ?_⟩
      · intro q hq
        rcases mem_mapSet _ _ _ q hq with h1 | h1
        · rw [h1]
          exact hop
        · exact hne q h1
      · have hmem : f ∈ st.cache.map Prod.fst := mem_keys_of_lookup_some hl
        have hsl := mapSet_length st.cache f { e2 with lastAccessMs := t }
        rw [if_pos hmem] at hsl
        show (mapSet st.cache f { e2 with lastAccessMs := t }).length
          ≤ maxCachedFiles
        rw [hsl]
        exact hlen
    | none =>
      cases hd : List.lookup f st.disk with
      | none =>
        have hload : loadParsedFile st f t = none := by
          unfold loadParsedFile
          rw [hl, hd]
        rw [hload]
        exact hwf
      | some pr =>
        obtain ⟨meta, msgs⟩ := pr
        have hload : loadParsedFile st f t
            = some (⟨evictIfNeeded (mapSet st.cache f ⟨meta, msgs, t⟩),
                st.disk⟩, meta, msgs) := by
          unfold loadParsedFile
          rw [hl, hd]
        rw [hload]
        exact cacheWf_evict_mapSet st.cache f _ hwf hop

theorem cacheWf_runOps (ops : List StoreOp) :
    ∀ st : NodeStore, CacheWf st.cache → (∀ op ∈ ops, op.fileId ≠ []) →
      CacheWf (runOps st ops).cache := by
  induction ops with
  | nil => intro st h _; exact h
  | cons op ops ih =>
    intro st h hops
    exact ih (applyOp st op)
      (cacheWf_applyOp st op h (hops op (List.mem_cons_self _ _)))
      (fun o ho => hops o (List.mem_cons_of_mem _ ho))

/-- C6 counterexample: four inserts whose least-recently-used key is the
empty string leave four fully-materialized datasets in the cache — the
capacity bound of three fails as stated, because the truthiness test
`if (oldestKey)` skips eviction for a falsy (empty-string) key. -/
theorem cache_overflow_counterexample :
    (runOps emptyStore overflowOps).cache.length = maxCachedFiles + 1 := by
  decide

/-- C6 (amended): for put/get sequences whose dataset keys are non-empty
strings, the cache keeps distinct non-empty keys and holds at most
`MAX_CACHED_FILES = 3` datasets (the restriction is forced by the
`if (oldestKey)` truthiness guard, which skips eviction when the oldest key
is the empty string); whenever the cache exceeds capacity, eviction removes
exactly the first-found entry with the smallest `lastAccessMs` and no other;
a `get` hit refreshes the touched entry's last-access timestamp in place;
and filling the capacity-3 cache with datasets 1..3, accessing datasets 2
and 3, then inserting a fourth evicts dataset 1 only. -/
theorem cache_lru_amended :
    (∀ ops : List StoreOp, (∀ op ∈ ops, op.fileId ≠ []) →
      ((runOps emptyStore ops).cache.map Prod.fst).Nodup ∧
      (∀ q ∈ (runOps emptyStore ops).cache, q.1 ≠ []) ∧
      (runOps emptyStore ops).cache.length ≤ maxCachedFiles) ∧
    (∀ (c : JsMap CacheEntry) (k : Str) (t : Int),
      ¬ c.length ≤ maxCachedFiles → (∀ q ∈ c, q.1 ≠ []) →
      findOldest c = some (k, t) →
      evictIfNeeded c = mapDelete c k ∧
      ∃ l1 e l2, c = l1 ++ (k, e) :: l2 ∧ e.lastAccessMs = t ∧
        (∀ q ∈ l1, t < q.2.lastAccessMs) ∧
        ∀ q ∈ c, t ≤ q.2.lastAccessMs) ∧
    (∀ (st : NodeStore) (f : Str) (t : Int) (e2 : CacheEntry),
      List.lookup f st.cache = some e2 →
      (applyOp st (.get f t)).cache
        = mapSet st.cache f { e2 with lastAccessMs := t }) ∧
    (runOps emptyStore scenarioOps).cache.map Prod.fst
      = [fid2, fid3, fid4] := by
  refine ⟨?_, ?_, ?_, ?_⟩
  · intro ops hops
    refine cacheWf_runOps ops emptyStore ⟨?_, ?_, ?_⟩ hops
    · exact List.Pairwise.nil
    · intro q hq
      cases hq
    · decide
  · intro c k t hover hkeys hfind
    exact ⟨evictIfNeeded_over c k t hover hkeys hfind,
           findOldest_spec c k t hfind⟩
  · intro st f t e2 hl
    show (match loadParsedFile st f t with
      | some (st2, _, _) => st2
      | none => st).cache = _
    have hload : loadParsedFile st f t
        = some (⟨mapSet st.cache f { e2 with lastAccessMs := t }, st.disk⟩,
            e2.meta, e2.messages) := by
      unfold loadParsedFile
      rw [hl]
    rw [hload]
  · decide

/-- C6 witness: the amended theorem applied to the eviction scenario. -/
theorem cache_lru_amended_witness :
    (runOps emptyStore scenarioOps).cache.length ≤ maxCachedFiles :=
  (cache_lru_amended.1 scenarioOps (by decide)).2.2

/-! ### The frame property of the search (C10) -/

theorem readArr_writeArr_ne (h : JsHeap) (r s : Nat)
    (v : List ParsedMessage) (hne : r ≠ s) :
    readArr (writeArr h r v) s = readArr h s := by
  unfold readArr writeArr
  rw [List.getD_eq_getElem?_getD, List.getD_eq_getElem?_getD,
    List.getElem?_set_ne hne]

theorem readArr_writeArr_self (h : JsHeap) (r : Nat)
    (v : List ParsedMessage) (hr : r < h.length) :
    readArr (writeArr h r v) r = v := by
  unfold readArr writeArr
  rw [List.getD_eq_getElem?_getD, List.getElem?_set_self hr]
  rfl

theorem writeArr_length (h : JsHeap) (r : Nat) (v : List ParsedMessage) :
    (writeArr h r v).length = h.length := List.length_set _ _ _

theorem map_getD_range (l : List ParsedMessage) :
    (List.range l.length).map (fun i => l.getD i default) = l := by
  induction l with
  | nil => rfl
  | cons a rest ih =>
    rw [List.length_cons, List.range_succ_eq_map, List.map_cons,
      List.map_map, List.getD_cons_zero,
      show ((fun i => (a :: rest).getD i default) ∘ Nat.succ)
          = (fun i => rest.getD i default)
        from funext fun i => List.getD_cons_succ, ih]

theorem foldl_pushFiltered_spec (p : SearchParams) (msgsRef filteredRef : Nat)
    (hne : msgsRef ≠ filteredRef) (idxs : List Nat) :
    ∀ h : JsHeap, filteredRef < h.length →
      (idxs.foldl (pushFilteredStep p msgsRef filteredRef) h).length
          = h.length ∧
      readArr (idxs.foldl (pushFilteredStep p msgsRef filteredRef) h) msgsRef
          = readArr h msgsRef ∧
      readArr (idxs.foldl (pushFilteredStep p msgsRef filteredRef) h)
          filteredRef
        = readArr h filteredRef ++
            (idxs.map (fun i => (readArr h msgsRef).getD i default)).filter
              (keepMessage p) := by
  induction idxs with
  | nil =>
    intro h hflt
    exact ⟨rfl, rfl, by simp⟩
  | cons i rest ih =>
    intro h hflt
    by_cases hkeep : keepMessage p ((readArr h msgsRef).getD i default) = true
    · have hstep : pushFilteredStep p msgsRef filteredRef h i
          = writeArr h filteredRef (readArr h filteredRef
              ++ [(readArr h msgsRef).getD i default]) := by
        unfold pushFilteredStep
        rw [if_pos hkeep]
      rw [List.foldl_cons, hstep]
      have hflt2 : filteredRef < (writeArr h filteredRef
          (readArr h filteredRef
            ++ [(readArr h msgsRef).getD i default])).length := by
        rw [writeArr_length]
        exact hflt
      rcases ih _ hflt2 with ⟨l1, l2, l3⟩
      refine ⟨by rw [l1, writeArr_length], ?_, ?_⟩
      · rw [l2, readArr_writeArr_ne _ _ _ _ (Ne.symm hne)]
      · rw [l3, readArr_writeArr_self _ _ _ hflt,
          readArr_writeArr_ne _ _ _ _ (Ne.symm hne),
          List.map_cons, List.filter_cons, if_pos hkeep,
          List.append_assoc]
        rfl
    · have hstep : pushFilteredStep p msgsRef filteredRef h i = h := by
        unfold pushFilteredStep
        rw [if_neg hkeep]
      rw [List.foldl_cons, hstep]
      rcases ih h hflt with ⟨l1, l2, l3⟩
      refine ⟨l1, l2, ?_⟩
      rw [l3, List.map_cons, List.filter_cons, if_neg hkeep]

/-- C10: the heap-level `searchMessages` leaves the input array unchanged —
filtering pushes onto a freshly allocated array and the ranking sort mutates
only that copy — and its outputs agree with the pure function, so re-running
the same search yields identical results. -/
theorem searchMessagesHeap_frame (h0 : JsHeap) (msgsRef : Nat)
    (p : SearchParams) (href : msgsRef < h0.length) :
    readArr (searchMessagesHeap h0 msgsRef p).1 msgsRef
        = readArr h0 msgsRef ∧
    (searchMessagesHeap h0 msgsRef p).2.1
        = (searchMessages (readArr h0 msgsRef) p).total ∧
    (searchMessagesHeap h0 msgsRef p).2.2
        = (searchMessages (readArr h0 msgsRef) p).results := by
  have hne : msgsRef ≠ h0.length := Nat.ne_of_lt href
  have hr1 : readArr (h0 ++ [[]]) msgsRef = readArr h0 msgsRef := by
    unfold readArr
    rw [List.getD_eq_getElem?_getD, List.getD_eq_getElem?_getD,
      List.getElem?_append_left href]
  have hf1 : readArr (h0 ++ [[]]) h0.length = [] := by
    unfold readArr
    rw [List.getD_eq_getElem?_getD, List.getElem?_concat_length]
    rfl
  have hflt : h0.length < (h0 ++ [[]]).length := by
    rw [List.length_append]
    simp
  obtain ⟨s1, s2, s3⟩ := foldl_pushFiltered_spec p msgsRef h0.length hne
    (List.range (readArr (h0 ++ [[]]) msgsRef).length) (h0 ++ [[]]) hflt
  have hfr2 : readArr ((List.range
        (readArr (h0 ++ [[]]) msgsRef).length).foldl
          (pushFilteredStep p msgsRef h0.length) (h0 ++ [[]])) h0.length
      = (readArr h0 msgsRef).filter (keepMessage p) := by
    rw [s3, hf1, List.nil_append, hr1, map_getD_range]
  have hflt3 : h0.length < ((List.range
      (readArr (h0 ++ [[]]) msgsRef).length).foldl
        (pushFilteredStep p msgsRef h0.length) (h0 ++ [[]])).length := by
    rw [s1]
    exact hflt
  refine ⟨?_, ?_, ?_⟩
  · show readArr (writeArr ((List.range
        (readArr (h0 ++ [[]]) msgsRef).length).foldl
          (pushFilteredStep p msgsRef h0.length) (h0 ++ [[]])) h0.length
        (rankedSort (readArr ((List.range
          (readArr (h0 ++ [[]]) msgsRef).length).foldl
            (pushFilteredStep p msgsRef h0.length) (h0 ++ [[]]))
          h0.length))) msgsRef
      = readArr h0 msgsRef
    rw [readArr_writeArr_ne _ _ _ _ (Ne.symm hne), s2, hr1]
  · show (readArr (writeArr ((List.range
        (readArr (h0 ++ [[]]) msgsRef).length).foldl
          (pushFilteredStep p msgsRef h0.length) (h0 ++ [[]])) h0.length
        (rankedSort (readArr ((List.range
          (readArr (h0 ++ [[]]) msgsRef).length).foldl
            (pushFilteredStep p msgsRef h0.length) (h0 ++ [[]]))
          h0.length))) h0.length).length
      = (searchMessages (readArr h0 msgsRef) p).total
    rw [readArr_writeArr_self _ _ _ hflt3, hfr2]
    rfl
  · show (((readArr (writeArr ((List.range
        (readArr (h0 ++ [[]]) msgsRef).length).foldl
          (pushFilteredStep p msgsRef h0.length) (h0 ++ [[]])) h0.length
        (rankedSort (readArr ((List.range
          (readArr (h0 ++ [[]]) msgsRef).length).foldl
            (pushFilteredStep p msgsRef h0.length) (h0 ++ [[]]))
          h0.length))) h0.length).drop p.offset).take p.limit).map (mkHit p)
      = (searchMessages (readArr h0 msgsRef) p).results
    rw [readArr_writeArr_self _ _ _ hflt3, hfr2]
    rfl

/-- C10 witness: the frame theorem at a one-array heap. -/
theorem searchMessagesHeap_frame_witness :
    readArr (searchMessagesHeap [[wMsg]] 0 allParams).1 0
        = readArr [[wMsg]] 0 ∧
    (searchMessagesHeap [[wMsg]] 0 allParams).2.1
        = (searchMessages (readArr [[wMsg]] 0) allParams).total ∧
    (searchMessagesHeap [[wMsg]] 0 allParams).2.2
        = (searchMessages (readArr [[wMsg]] 0) allParams).results :=
  searchMessagesHeap_frame [[wMsg]] 0 allParams (by decide)

end HtmlSearch

